import Mathlib

/-!
# go-lol: REST getters and the darwin replay launcher

A shallow embedding of `rest_api_getter.go` and of the permission test of
`go-lol-cli/lol_replay_launcher_darwin.go`.

* `RESTError`, `SimpleRESTGetter.Get` are pure functions of what the transport
  (`http.Get`) and the decoder (`json.Decoder.Decode`) answer; the calls they
  make are recorded in an effect list.
* `RateLimitedRESTGetter` is a timed transition system: goroutines calling
  `Get`, the goroutines spawned by the deferred function, the buffered channel
  `tokens`, and a clock.
-/

namespace lol

/-! ## RESTError -/

/-- The struct `RESTError` (`Code int`). -/
structure RESTError where
  Code : Int
deriving DecidableEq, Repr

/-- The method `RESTError.Error` (lines 29-34); `toString` on `Int` prints
what `%d` prints. -/
def RESTError.Error (e : RESTError) : String :=
  if e.Code == 429 then
    "Too Many request to server"
  else
    "Non 200 return code: " ++ toString e.Code

/-- A Go `error` value: either a `RESTError`, or an error made by a library
(`net/http`, `encoding/json`). -/
inductive GoError (ε : Type) where
  | rest (e : RESTError)
  | lib (e : ε)
deriving DecidableEq, Repr

/-! ## SimpleRESTGetter -/

/-- The constant `http.StatusNoContent`. -/
def StatusNoContent : Int := 204

/-- The part of `http.Response` the getter reads. -/
structure Response (β : Type) where
  StatusCode : Int
  Body : β
deriving DecidableEq, Repr

/-- The calls `SimpleRESTGetter.Get` makes, in order of execution. -/
inductive Effect (β : Type) where
  | httpGet (url : String)
  | statusCheck (code : Int)
  | decode (body : β)
  | bodyClose (body : β)
deriving DecidableEq, Repr

/-- What a call of `Get` leaves behind: the returned `error` (`none` is
`nil`), the content of the target `v`, and the calls made. -/
structure GetResult (ε β τ : Type) where
  err : Option (GoError ε)
  v : τ
  effects : List (Effect β)
deriving DecidableEq, Repr

/-- The struct `SimpleRESTGetter` (no field). -/
structure SimpleRESTGetter where
deriving DecidableEq, Repr

/-- The constructor `NewSimpleRESTGetter`. -/
def NewSimpleRESTGetter : SimpleRESTGetter := {}

/-- The method `SimpleRESTGetter.Get` (lines 44-62). `httpGet` is `http.Get`
and `decode body v` is `json.NewDecoder(body).Decode(v)`, giving the new
content of the target and the decoder's error. The deferred
`resp.Body.Close()` runs last on the two paths that registered it. -/
def SimpleRESTGetter.Get {ε β τ : Type} (_g : SimpleRESTGetter)
    (httpGet : String → Except (GoError ε) (Response β))
    (decode : β → τ → τ × Option (GoError ε))
    (url : String) (v : τ) : GetResult ε β τ :=
  match httpGet url with
  | .error err => ⟨some err, v, [.httpGet url]⟩
  | .ok resp =>
    if resp.StatusCode ≥ 400 || resp.StatusCode == StatusNoContent then
      ⟨some (.rest ⟨resp.StatusCode⟩), v,
        [.httpGet url, .statusCheck resp.StatusCode, .bodyClose resp.Body]⟩
    else
      let r := decode resp.Body v
      ⟨r.2, r.1,
        [.httpGet url, .statusCheck resp.StatusCode, .decode resp.Body, .bodyClose resp.Body]⟩

/-- Whether the effect is a run of the JSON decoder. -/
def Effect.isDecode {β : Type} : Effect β → Bool
  | .decode _ => true
  | _ => false

/-- Whether the effect is the test of the status code. -/
def Effect.isStatusCheck {β : Type} : Effect β → Bool
  | .statusCheck _ => true
  | _ => false

/-! ## RateLimitedRESTGetter -/

/-- A buffered channel of `bool` on which only `true` is sent: its capacity
and the number of values in its buffer. -/
structure Chan where
  cap : Nat
  len : Nat
deriving DecidableEq, Repr

/-- The struct `RateLimitedRESTGetter`; `window` is a `time.Duration`. -/
structure RateLimitedRESTGetter where
  getter : SimpleRESTGetter
  window : Int
  tokens : Chan
deriving DecidableEq, Repr

/-- The constructor `NewRateLimitedRESTGetter` (lines 76-82):
`make(chan bool, limit)` is an empty channel of capacity `limit`. -/
def NewRateLimitedRESTGetter (limit : Nat) (window : Int) : RateLimitedRESTGetter :=
  { getter := NewSimpleRESTGetter
    window := window
    tokens := { cap := limit, len := 0 } }

/-- Where a goroutine running `RateLimitedRESTGetter.Get` (lines 86-98) stands.
* `send`: at `g.tokens <- true`, the value not yet sent;
* `delegate acq disp`: the value was sent at time `acq` and the goroutine is in
  `g.getter.Get(url, v)`, whose `http.Get` was issued at `disp` (if yet);
* `returned acq disp ret err out`: `g.getter.Get` returned `err` at `ret`
  leaving `out` in the target, the deferred function ran, `Get` returned `err`. -/
inductive CallPC (ε τ : Type) where
  | send
  | delegate (acq : Int) (disp : Option Int)
  | returned (acq disp ret : Int) (err : Option (GoError ε)) (out : τ)
deriving DecidableEq, Repr

/-- A call `g.Get(url, v)`. -/
structure Call (ε τ : Type) where
  url : String
  v : τ
  pc : CallPC ε τ
deriving DecidableEq, Repr

/-- Where a goroutine started by the deferred function (lines 90-93) stands:
in `time.Sleep(g.window)`, at `<-g.tokens`, or finished (at a time). -/
inductive TimerPC where
  | sleep
  | recv
  | exited (time : Int)
deriving DecidableEq, Repr

/-- A goroutine started by the deferred function of call number `owner`; it
entered `time.Sleep` no earlier than `since`. -/
structure Timer where
  owner : Nat
  since : Int
  pc : TimerPC
deriving DecidableEq, Repr

/-- A record of one call of `g.getter.Get`: by which call of
`RateLimitedRESTGetter.Get`, when, and with which arguments. -/
structure Dispatch (τ : Type) where
  call : Nat
  time : Int
  url : String
  v : τ
deriving DecidableEq, Repr

/-- The state of a `RateLimitedRESTGetter` with its goroutines: the clock, the
calls of `Get` in the order they were made, the goroutines of the deferred
function in the order they were started, and the delegated requests, the
latest first. -/
structure State (ε τ : Type) where
  g : RateLimitedRESTGetter
  now : Int
  calls : List (Call ε τ)
  timers : List Timer
  log : List (Dispatch τ)

/-- The steps of the system.
* `tick dt`: time passes;
* `call url v`: a goroutine calls `g.Get(url, v)`;
* `acquire i`: the send of call `i` puts its value in the buffer;
* `handoff i j`: the send of call `i` gives its value to the receive of timer
  `j`, blocked on the empty buffer;
* `dispatch i`: call `i`, in `g.getter.Get`, issues `http.Get`;
* `complete i httpGet`: `g.getter.Get` of call `i` returns, the transport
  having answered as `httpGet` does; the deferred function starts the timer;
* `wake j`: `time.Sleep` of timer `j` returns;
* `release j`: the receive of timer `j` takes a value from the buffer. -/
inductive Event (ε β : Type) (τ : Type) where
  | tick (dt : Nat)
  | call (url : String) (v : τ)
  | acquire (i : Nat)
  | handoff (i j : Nat)
  | dispatch (i : Nat)
  | complete (i : Nat) (httpGet : String → Except (GoError ε) (Response β))
  | wake (j : Nat)
  | release (j : Nat)

/-- The getter after a value entered the buffer of `tokens`. -/
def RateLimitedRESTGetter.put (g : RateLimitedRESTGetter) : RateLimitedRESTGetter :=
  { g with tokens := { g.tokens with len := g.tokens.len + 1 } }

/-- The getter after a value left the buffer of `tokens`. -/
def RateLimitedRESTGetter.take (g : RateLimitedRESTGetter) : RateLimitedRESTGetter :=
  { g with tokens := { g.tokens with len := g.tokens.len - 1 } }

/-- One step of the system, `none` when the step cannot be taken: a send on a
full buffer with no receiver blocks, as does a receive on an empty one, and
`time.Sleep(g.window)` returns no earlier than `g.window` after it was
entered. -/
def step? {ε β τ : Type} (decode : β → τ → τ × Option (GoError ε)) (s : State ε τ) :
    Event ε β τ → Option (State ε τ)
  | .tick dt => some { s with now := s.now + dt }
  | .call url v => some { s with calls := s.calls ++ [⟨url, v, .send⟩] }
  | .acquire i =>
    match s.calls[i]? with
    | some ⟨url, v, .send⟩ =>
      if s.g.tokens.len < s.g.tokens.cap then
        some { s with
          g := s.g.put
          calls := s.calls.set i ⟨url, v, .delegate s.now none⟩ }
      else none
    | _ => none
  | .handoff i j =>
    match s.calls[i]?, s.timers[j]? with
    | some ⟨url, v, .send⟩, some ⟨owner, since, .recv⟩ =>
      if s.g.tokens.len = 0 then
        some { s with
          calls := s.calls.set i ⟨url, v, .delegate s.now none⟩
          timers := s.timers.set j ⟨owner, since, .exited s.now⟩ }
      else none
    | _, _ => none
  | .dispatch i =>
    match s.calls[i]? with
    | some ⟨url, v, .delegate acq none⟩ =>
      some { s with
        calls := s.calls.set i ⟨url, v, .delegate acq (some s.now)⟩
        log := ⟨i, s.now, url, v⟩ :: s.log }
    | _ => none
  | .complete i httpGet =>
    match s.calls[i]? with
    | some ⟨url, v, .delegate acq (some disp)⟩ =>
      some { s with
        calls := s.calls.set i ⟨url, v, .returned acq disp s.now
          (SimpleRESTGetter.Get s.g.getter httpGet decode url v).err
          (SimpleRESTGetter.Get s.g.getter httpGet decode url v).v⟩
        timers := s.timers ++ [⟨i, s.now, .sleep⟩] }
    | _ => none
  | .wake j =>
    match s.timers[j]? with
    | some ⟨owner, since, .sleep⟩ =>
      if since + s.g.window ≤ s.now then
        some { s with timers := s.timers.set j ⟨owner, since, .recv⟩ }
      else none
    | _ => none
  | .release j =>
    match s.timers[j]? with
    | some ⟨owner, since, .recv⟩ =>
      if 0 < s.g.tokens.len then
        some { s with
          g := s.g.take
          timers := s.timers.set j ⟨owner, since, .exited s.now⟩ }
      else none
    | _ => none

/-- The steps of a list of events, one after the other. -/
def run {ε β τ : Type} (decode : β → τ → τ × Option (GoError ε)) (s : State ε τ) :
    List (Event ε β τ) → Option (State ε τ)
  | [] => some s
  | e :: es =>
    match step? decode s e with
    | some s' => run decode s' es
    | none => none

/-- The state right after `NewRateLimitedRESTGetter(limit, window)`, at time
`t0`: no call yet. -/
def init (ε τ : Type) (limit : Nat) (window : Int) (t0 : Int) : State ε τ :=
  { g := NewRateLimitedRESTGetter limit window
    now := t0
    calls := []
    timers := []
    log := [] }

/-! ## Counting, and the step relation -/

/-- The sum of the weights `f` of the elements of a list. -/
def wsum {α : Type} (f : α → Nat) (l : List α) : Nat := (l.map f).sum

/-- The steps of `step?` as a relation, one rule per event. -/
inductive Step {ε β τ : Type} (decode : β → τ → τ × Option (GoError ε)) :
    State ε τ → Event ε β τ → State ε τ → Prop where
  | tick (s : State ε τ) (dt : Nat) :
    Step decode s (.tick dt) { s with now := s.now + dt }
  | call (s : State ε τ) (url : String) (v : τ) :
    Step decode s (.call url v) { s with calls := s.calls ++ [⟨url, v, .send⟩] }
  | acquire (s : State ε τ) (i : Nat) (url : String) (v : τ)
      (hc : s.calls[i]? = some ⟨url, v, .send⟩)
      (hlen : s.g.tokens.len < s.g.tokens.cap) :
    Step decode s (.acquire i)
      { s with g := s.g.put, calls := s.calls.set i ⟨url, v, .delegate s.now none⟩ }
  | handoff (s : State ε τ) (i j : Nat) (url : String) (v : τ) (owner : Nat) (since : Int)
      (hc : s.calls[i]? = some ⟨url, v, .send⟩)
      (ht : s.timers[j]? = some ⟨owner, since, .recv⟩)
      (hlen : s.g.tokens.len = 0) :
    Step decode s (.handoff i j)
      { s with
        calls := s.calls.set i ⟨url, v, .delegate s.now none⟩
        timers := s.timers.set j ⟨owner, since, .exited s.now⟩ }
  | dispatch (s : State ε τ) (i : Nat) (url : String) (v : τ) (acq : Int)
      (hc : s.calls[i]? = some ⟨url, v, .delegate acq none⟩) :
    Step decode s (.dispatch i)
      { s with
        calls := s.calls.set i ⟨url, v, .delegate acq (some s.now)⟩
        log := ⟨i, s.now, url, v⟩ :: s.log }
  | complete (s : State ε τ) (i : Nat) (httpGet : String → Except (GoError ε) (Response β))
      (url : String) (v : τ) (acq disp : Int)
      (hc : s.calls[i]? = some ⟨url, v, .delegate acq (some disp)⟩) :
    Step decode s (.complete i httpGet)
      { s with
        calls := s.calls.set i ⟨url, v, .returned acq disp s.now
          (SimpleRESTGetter.Get s.g.getter httpGet decode url v).err
          (SimpleRESTGetter.Get s.g.getter httpGet decode url v).v⟩
        timers := s.timers ++ [⟨i, s.now, .sleep⟩] }
  | wake (s : State ε τ) (j : Nat) (owner : Nat) (since : Int)
      (ht : s.timers[j]? = some ⟨owner, since, .sleep⟩)
      (hw : since + s.g.window ≤ s.now) :
    Step decode s (.wake j) { s with timers := s.timers.set j ⟨owner, since, .recv⟩ }
  | release (s : State ε τ) (j : Nat) (owner : Nat) (since : Int)
      (ht : s.timers[j]? = some ⟨owner, since, .recv⟩)
      (hlen : 0 < s.g.tokens.len) :
    Step decode s (.release j)
      { s with g := s.g.take, timers := s.timers.set j ⟨owner, since, .exited s.now⟩ }

/-! ## Measures on calls, timers and the log -/

/-- The time the value of the call entered `tokens`, once it did. -/
def CallPC.acq? {ε τ : Type} : CallPC ε τ → Option Int
  | .send => none
  | .delegate acq _ => some acq
  | .returned acq _ _ _ _ => some acq

/-- The time `http.Get` of the call was issued, once it was. -/
def CallPC.disp? {ε τ : Type} : CallPC ε τ → Option Int
  | .send => none
  | .delegate _ disp => disp
  | .returned _ disp _ _ _ => some disp

/-- The error `Get` returned, once it returned. -/
def CallPC.err? {ε τ : Type} : CallPC ε τ → Option (Option (GoError ε))
  | .returned _ _ _ err _ => some err
  | _ => none

/-- Weight 1 for a call that is in `g.getter.Get`: it sent its value and its
deferred function has not run yet. -/
def holdC {ε τ : Type} (c : Call ε τ) : Nat :=
  match c.pc with
  | .delegate _ _ => 1
  | _ => 0

/-- Weight 1 for a timer that has not yet received from `tokens`. -/
def holdT (t : Timer) : Nat :=
  match t.pc with
  | .exited _ => 0
  | _ => 1

/-- Weight 1 for a call in `g.getter.Get` whose request was issued less than `W`
before `x`. -/
def freshC {ε τ : Type} (W x : Int) (c : Call ε τ) : Nat :=
  match c.pc with
  | .delegate _ (some d) => if x < d + W then 1 else 0
  | _ => 0

/-- Weight 1 for a sleeping timer that started less than `W` before `x`. -/
def freshT (W x : Int) (t : Timer) : Nat :=
  match t.pc with
  | .sleep => if x < t.since + W then 1 else 0
  | _ => 0

/-- Weight 1 for a request issued less than `W` before `x`. -/
def freshL {τ : Type} (W x : Int) (e : Dispatch τ) : Nat :=
  if x < e.time + W then 1 else 0

/-- Weight 1 for a request issued in the half-open interval `[t, t + W)`. -/
def inWindow {τ : Type} (t W : Int) (e : Dispatch τ) : Nat :=
  if t ≤ e.time ∧ e.time < t + W then 1 else 0

/-- Weight 1 for a call whose request was issued. -/
def dispW {ε τ : Type} (c : Call ε τ) : Nat :=
  match c.pc with
  | .delegate _ (some _) => 1
  | .returned _ _ _ _ _ => 1
  | _ => 0

/-- Weight 1 for a call that returned. -/
def retW {ε τ : Type} (c : Call ε τ) : Nat :=
  match c.pc with
  | .returned _ _ _ _ _ => 1
  | _ => 0

/-- Weight 1 for a request of call number `i`. -/
def byCall {τ : Type} (i : Nat) (e : Dispatch τ) : Nat :=
  if e.call = i then 1 else 0

/-- Weight 1 for a timer of call number `i`. -/
def byOwner (i : Nat) (t : Timer) : Nat :=
  if t.owner = i then 1 else 0

/-- The times of a call are in order and not in the future. -/
def CallOK {ε τ : Type} (now : Int) (c : Call ε τ) : Prop :=
  match c.pc with
  | .send => True
  | .delegate a none => a ≤ now
  | .delegate a (some d) => a ≤ d ∧ d ≤ now
  | .returned a d r _ _ => a ≤ d ∧ d ≤ r ∧ r ≤ now

/-- A timer past its sleep started at least `W` ago, and it finished at
least `W` after it started. -/
def TimerOK (W now : Int) (t : Timer) : Prop :=
  t.since ≤ now ∧
  match t.pc with
  | .sleep => True
  | .recv => t.since + W ≤ now
  | .exited x => t.since + W ≤ x ∧ x ≤ now

/-- The invariant of the system built by `NewRateLimitedRESTGetter(limit, W)`. -/
structure Inv {ε τ : Type} (limit : Nat) (W : Int) (s : State ε τ) : Prop where
  cap_eq : s.g.tokens.cap = limit
  window_eq : s.g.window = W
  len_eq : s.g.tokens.len = wsum holdC s.calls + wsum holdT s.timers
  len_le : s.g.tokens.len ≤ limit
  calls_ok : ∀ c ∈ s.calls, CallOK s.now c
  timers_ok : ∀ t ∈ s.timers, TimerOK W s.now t
  owner_ok : ∀ t ∈ s.timers, ∃ c, s.calls[t.owner]? = some c ∧
    ∃ a d err out, c.pc = .returned a d t.since err out
  fresh : ∀ x, s.now ≤ x →
    wsum (freshL W x) s.log ≤ wsum (freshC W x) s.calls + wsum (freshT W x) s.timers
  log_ok : ∀ e ∈ s.log, e.time ≤ s.now ∧ ∃ c, s.calls[e.call]? = some c ∧
    (c.url = e.url ∧ c.v = e.v ∧ c.pc.disp? = some e.time)
  log_sorted : s.log.Pairwise (fun x y => y.time ≤ x.time)
  log_count : ∀ i, wsum (byCall i) s.log = ((s.calls[i]?).map dispW).getD 0
  timer_count : ∀ i, wsum (byOwner i) s.timers = ((s.calls[i]?).map retW).getD 0
  window_bound : ∀ t, wsum (inWindow t W) s.log ≤ limit

/-- Whether the call is in `g.getter.Get`. -/
def Call.inDelegate {ε τ : Type} (c : Call ε τ) : Bool :=
  match c.pc with
  | .delegate _ _ => true
  | _ => false

/-- Whether the timer is scheduled and has not yet received from `tokens`. -/
def Timer.pending (t : Timer) : Bool :=
  match t.pc with
  | .exited _ => false
  | _ => true

/-- The state of a getter of limit 0 in which nothing happened but calls. -/
structure Idle {ε τ : Type} (s : State ε τ) : Prop where
  cap_eq : s.g.tokens.cap = 0
  len_eq : s.g.tokens.len = 0
  calls_send : ∀ c ∈ s.calls, c.pc = .send
  timers_nil : s.timers = []
  log_nil : s.log = []

/-! ## An example run -/

/-- A decoder that stores the body in the target. -/
def exampleDecode : String → String → String × Option (GoError Unit) :=
  fun body _ => (body, none)

/-- A transport that answers 200 with an empty object. -/
def exampleNet : String → Except (GoError Unit) (Response String) :=
  fun _ => .ok ⟨200, "{}"⟩

/-- One call on a getter of limit 1 and window 10: the value is sent and the
request issued at time 0, and the request is still running at time 10. -/
def slowRequest : List (Event Unit String String) :=
  [.call "u" "", .acquire 0, .dispatch 0, .tick 10]

/-- The run `slowRequest` continued: the request returns at 15, the sleep
ends at 25 and the token leaves the channel. -/
def slowRequestReleased : List (Event Unit String String) :=
  slowRequest ++ [.tick 5, .complete 0 exampleNet, .tick 10, .wake 0, .release 0]

/-- Two calls of `Get` and a long wait. -/
def blockedCalls : List (Event Unit String String) :=
  [.call "u" "", .call "w" "", .tick 1000]

/-- Two calls on a getter of limit 1 and window 10: the first takes 3, its
token leaves the channel at 13, and the second is then served. -/
def twoCalls : List (Event Unit String String) :=
  [.call "u" "", .call "w" "", .acquire 0, .dispatch 0, .tick 3, .complete 0 exampleNet,
    .tick 10, .wake 0, .release 0, .acquire 1, .dispatch 1]

/-! ## The darwin launcher's permission test -/

/-- The method `os.FileMode.Perm`: the nine permission bits (`ModePerm = 0777`). -/
def Perm (mode : Nat) : Nat := mode &&& 0o777

/-- The errors of `lookForExecutableReleases`, one per `fmt.Errorf`, and the
error of `newVersion` passed on as it is. -/
inductive LauncherError (ε : Type) where
  | couldNotCheck (err : ε)
  | version (err : ε)
  | noRelease (basepath : String)
  | noBinary (res : String) (err : ε)
  | wrongPermission (perm : Nat) (res : String)
deriving DecidableEq, Repr

/-- An entry of `ioutil.ReadDir`: `Name()` and `IsDir()`. -/
structure FileInfo where
  Name : String
  IsDir : Bool
deriving DecidableEq, Repr

/-- The loop of lines 35-44: the versions of the directories, or the first
error of `newVersion`. -/
def collectVersions {ε V : Type} (newVersion : String → Except ε V) :
    List FileInfo → List V → Except ε (List V)
  | [], versions => .ok versions
  | inf :: rest, versions =>
    if inf.IsDir == false then
      collectVersions newVersion rest versions
    else
      match newVersion inf.Name with
      | .error err => .error err
      | .ok v => collectVersions newVersion rest (versions ++ [v])

/-- The method `darwinLauncher.lookForExecutableReleases` (lines 28-62). The
file system (`readDir`, `stat`, giving the `Mode()` of the file), `path.Join`
and the type `version` of the package (`newVersion`, the descending sort,
`String`) are parameters: they are not in this file. -/
def lookForExecutableReleases {ε V : Type}
    (readDir : String → Except ε (List FileInfo))
    (newVersion : String → Except ε V)
    (sortReverse : List V → List V)
    (versionString : V → String)
    (join : List String → String)
    (stat : String → Except ε Nat)
    (basepath binPath : String) : Except (LauncherError ε) String :=
  match readDir basepath with
  | .error err => .error (.couldNotCheck err)
  | .ok filesInfo =>
    match collectVersions newVersion filesInfo [] with
    | .error err => .error (.version err)
    | .ok versions =>
      match sortReverse versions with
      | [] => .error (.noRelease basepath)
      | v0 :: _ =>
        let res := join [basepath, versionString v0, binPath]
        match stat res with
        | .error err => .error (.noBinary res err)
        | .ok mode =>
          if Perm mode &&& 111 == 111 then
            .error (.wrongPermission (Perm mode) res)
          else
            .ok res

/-! ## Theorems: RESTError and SimpleRESTGetter -/

/-- The generic message starts with `N` and the message of code 429 with
`T`. -/
theorem generic_message_ne (t : String) :
    "Non 200 return code: " ++ t ≠ "Too Many request to server" := by
  intro h
  have h2 := congrArg String.data h
  simp at h2

/-- The decoder runs in `SimpleRESTGetter.Get` exactly on a status below 400
other than 204, once the transport answered. -/
theorem Get_decodes_iff {ε β τ : Type} (g : SimpleRESTGetter)
    (httpGet : String → Except (GoError ε) (Response β))
    (decode : β → τ → τ × Option (GoError ε)) (url : String) (v : τ)
    (resp : Response β) (h : httpGet url = .ok resp) :
    (g.Get httpGet decode url v).effects.any Effect.isDecode = true ↔
      (resp.StatusCode < 400 ∧ resp.StatusCode ≠ 204) := by
  unfold SimpleRESTGetter.Get
  rw [h]
  by_cases hs : resp.StatusCode ≥ 400 ∨ resp.StatusCode = 204
  · have hb : (decide (resp.StatusCode ≥ 400) || resp.StatusCode == StatusNoContent) = true := by
      simpa [StatusNoContent] using hs
    simp only [hb, if_true]
    simp [Effect.isDecode]
    omega
  · have hb : (decide (resp.StatusCode ≥ 400) || resp.StatusCode == StatusNoContent) = false := by
      simpa [StatusNoContent] using hs
    simp [hb, Effect.isDecode]
    omega

/-- C3. Status classification of `SimpleRESTGetter.Get`. When the transport
answers with status `s`: the call returns `RESTError{Code: s}` without running
the decoder if and only if `s ≥ 400` or `s = 204`; for every other `s` it
returns the decoder's result (error and target), having run the decoder. When
the transport fails, its error is returned as it is, the target is untouched,
and neither the status test nor the decoder runs. -/
theorem Get_status_classification {ε β τ : Type} (g : SimpleRESTGetter)
    (httpGet : String → Except (GoError ε) (Response β))
    (decode : β → τ → τ × Option (GoError ε)) (url : String) (v : τ) :
    (∀ resp, httpGet url = .ok resp →
      ((((g.Get httpGet decode url v).err = some (.rest ⟨resp.StatusCode⟩) ∧
          (g.Get httpGet decode url v).effects.any Effect.isDecode = false) ↔
        (resp.StatusCode ≥ 400 ∨ resp.StatusCode = 204)) ∧
       (¬ (resp.StatusCode ≥ 400 ∨ resp.StatusCode = 204) →
          (g.Get httpGet decode url v).err = (decode resp.Body v).2 ∧
          (g.Get httpGet decode url v).v = (decode resp.Body v).1 ∧
          (g.Get httpGet decode url v).effects.any Effect.isDecode = true))) ∧
    (∀ err, httpGet url = .error err →
      (g.Get httpGet decode url v).err = some err ∧
      (g.Get httpGet decode url v).v = v ∧
      (g.Get httpGet decode url v).effects.any Effect.isStatusCheck = false ∧
      (g.Get httpGet decode url v).effects.any Effect.isDecode = false) := by
  constructor
  · intro resp h
    have hdec := Get_decodes_iff g httpGet decode url v resp h
    by_cases hs : resp.StatusCode ≥ 400 ∨ resp.StatusCode = 204
    · have hb : (decide (resp.StatusCode ≥ 400) || resp.StatusCode == StatusNoContent) = true := by
        simpa [StatusNoContent] using hs
      refine ⟨⟨fun _ => hs, fun _ => ⟨?_, ?_⟩⟩, fun hn => absurd hs hn⟩
      · unfold SimpleRESTGetter.Get
        rw [h]
        simp only [hb, if_true]
      · cases hany : (g.Get httpGet decode url v).effects.any Effect.isDecode
        · rfl
        · have := hdec.mp hany
          omega
    · have hb : (decide (resp.StatusCode ≥ 400) || resp.StatusCode == StatusNoContent) = false := by
        simpa [StatusNoContent] using hs
      have hany : (g.Get httpGet decode url v).effects.any Effect.isDecode = true :=
        hdec.mpr (by omega)
      refine ⟨⟨fun hl => ?_, fun hr => absurd hr hs⟩, fun _ => ⟨?_, ?_, hany⟩⟩
      · rw [hany] at hl
        exact absurd hl.2 (by simp)
      · unfold SimpleRESTGetter.Get
        rw [h]
        simp [hb]
      · unfold SimpleRESTGetter.Get
        rw [h]
        simp [hb]
  · intro err h
    unfold SimpleRESTGetter.Get
    rw [h]
    simp [Effect.isStatusCheck, Effect.isDecode]

/-- C3, at a concrete input: status 404 gives `RESTError{Code: 404}` and the
decoder does not run. -/
theorem Get_status_classification_witness :
    (SimpleRESTGetter.Get NewSimpleRESTGetter
        (fun _ => (.ok ⟨404, "{}"⟩ : Except (GoError Unit) (Response String)))
        (fun b _ => ((b, none) : String × Option (GoError Unit))) "u" "").err
      = some (.rest ⟨404⟩) ∧
    (SimpleRESTGetter.Get NewSimpleRESTGetter
        (fun _ => (.ok ⟨404, "{}"⟩ : Except (GoError Unit) (Response String)))
        (fun b _ => ((b, none) : String × Option (GoError Unit))) "u" "").effects.any
          Effect.isDecode = false :=
  (((Get_status_classification NewSimpleRESTGetter
      (fun _ => (.ok ⟨404, "{}"⟩ : Except (GoError Unit) (Response String)))
      (fun b _ => ((b, none) : String × Option (GoError Unit))) "u" "").1
        ⟨404, "{}"⟩ rfl).1).mpr (Or.inl (by decide))

/-- C7, as stated, fails: the message of code 429 is not the text
"too many requests to server". -/
theorem Error_429_counterexample :
    RESTError.Error ⟨429⟩ ≠ "too many requests to server" := by
  decide

/-- C7, amended. `RESTError{Code: 429}.Error()` is exactly
"Too Many request to server", so a response with status 429 makes
`SimpleRESTGetter.Get` return an error with that message; for every other code
the message is "Non 200 return code: " followed by the code in decimal, and it
differs from the message of 429. -/
theorem Error_message {ε β τ : Type} (g : SimpleRESTGetter)
    (httpGet : String → Except (GoError ε) (Response β))
    (decode : β → τ → τ × Option (GoError ε)) (url : String) (v : τ) :
    RESTError.Error ⟨429⟩ = "Too Many request to server" ∧
    (∀ body, httpGet url = .ok ⟨429, body⟩ →
      ∃ e : RESTError, (g.Get httpGet decode url v).err = some (.rest e) ∧
        e.Error = "Too Many request to server") ∧
    (∀ code : Int, code ≠ 429 →
      RESTError.Error ⟨code⟩ = "Non 200 return code: " ++ toString code ∧
      RESTError.Error ⟨code⟩ ≠ RESTError.Error ⟨429⟩) := by
  refine ⟨by decide, ?_, ?_⟩
  · intro body h
    refine ⟨⟨429⟩, ?_, by decide⟩
    unfold SimpleRESTGetter.Get
    rw [h]
    rfl
  · intro code hc
    have h1 : RESTError.Error ⟨code⟩ = "Non 200 return code: " ++ toString code := by
      simp [RESTError.Error, hc]
    refine ⟨h1, ?_⟩
    rw [h1]
    have h2 : RESTError.Error ⟨429⟩ = "Too Many request to server" := by decide
    rw [h2]
    exact generic_message_ne _

/-- C7 amended, at a concrete input: a response with status 429. -/
theorem Error_message_witness :
    ∃ e : RESTError,
      (SimpleRESTGetter.Get NewSimpleRESTGetter
        (fun _ => (.ok ⟨429, "{}"⟩ : Except (GoError Unit) (Response String)))
        (fun b _ => ((b, none) : String × Option (GoError Unit))) "u" "").err
        = some (.rest e) ∧ e.Error = "Too Many request to server" :=
  (Error_message NewSimpleRESTGetter
      (fun _ => (.ok ⟨429, "{}"⟩ : Except (GoError Unit) (Response String)))
      (fun b _ => ((b, none) : String × Option (GoError Unit))) "u" "").2.1 "{}" rfl

/-- C8, as stated, fails: on status 201 the decoder runs and the call returns
the decoder's `nil`, not a `RESTError`. -/
theorem Get_only_200_counterexample :
    (SimpleRESTGetter.Get NewSimpleRESTGetter
        (fun _ => (.ok ⟨201, "{}"⟩ : Except (GoError Unit) (Response String)))
        (fun b _ => ((b, none) : String × Option (GoError Unit))) "u" "").err = none ∧
    (SimpleRESTGetter.Get NewSimpleRESTGetter
        (fun _ => (.ok ⟨201, "{}"⟩ : Except (GoError Unit) (Response String)))
        (fun b _ => ((b, none) : String × Option (GoError Unit))) "u" "").effects.any
          Effect.isDecode = true := by
  decide

/-- C8, amended. When the transport answers with status `s`,
`SimpleRESTGetter.Get` decodes the body if and only if `s < 400` and
`s ≠ 204`: status 200 is decoded, and so are 201, 301 and 100; when it does
not decode it returns `RESTError{Code: s}`, and then `s ≠ 200`. -/
theorem Get_decoded_statuses {ε β τ : Type} (g : SimpleRESTGetter)
    (httpGet : String → Except (GoError ε) (Response β))
    (decode : β → τ → τ × Option (GoError ε)) (url : String) (v : τ)
    (resp : Response β) (h : httpGet url = .ok resp) :
    ((g.Get httpGet decode url v).effects.any Effect.isDecode = true ↔
      (resp.StatusCode < 400 ∧ resp.StatusCode ≠ 204)) ∧
    (resp.StatusCode ∈ [200, 201, 301, 100] →
      (g.Get httpGet decode url v).effects.any Effect.isDecode = true ∧
      (g.Get httpGet decode url v).err = (decode resp.Body v).2) ∧
    ((g.Get httpGet decode url v).effects.any Effect.isDecode = false →
      (g.Get httpGet decode url v).err = some (.rest ⟨resp.StatusCode⟩) ∧
      resp.StatusCode ≠ 200) := by
  have hdec := Get_decodes_iff g httpGet decode url v resp h
  refine ⟨hdec, ?_, ?_⟩
  · intro hm
    have hs : resp.StatusCode < 400 ∧ resp.StatusCode ≠ 204 := by
      simp only [List.mem_cons, List.mem_singleton, List.mem_nil_iff, or_false] at hm
      omega
    have hb : (decide (resp.StatusCode ≥ 400) || resp.StatusCode == StatusNoContent) = false := by
      simp [StatusNoContent]
      omega
    refine ⟨hdec.mpr hs, ?_⟩
    unfold SimpleRESTGetter.Get
    rw [h]
    simp [hb]
  · intro hno
    have hs : resp.StatusCode ≥ 400 ∨ resp.StatusCode = 204 := by
      by_contra hc
      have := hdec.mpr (by omega)
      rw [this] at hno
      exact absurd hno (by simp)
    have hb : (decide (resp.StatusCode ≥ 400) || resp.StatusCode == StatusNoContent) = true := by
      simpa [StatusNoContent] using hs
    refine ⟨?_, by omega⟩
    unfold SimpleRESTGetter.Get
    rw [h]
    simp only [hb, if_true]

/-- C8 amended, at a concrete input: status 301 is decoded. -/
theorem Get_decoded_statuses_witness :
    (SimpleRESTGetter.Get NewSimpleRESTGetter
        (fun _ => (.ok ⟨301, "{}"⟩ : Except (GoError Unit) (Response String)))
        (fun b _ => ((b, none) : String × Option (GoError Unit))) "u" "").effects.any
          Effect.isDecode = true :=
  ((Get_decoded_statuses NewSimpleRESTGetter
      (fun _ => (.ok ⟨301, "{}"⟩ : Except (GoError Unit) (Response String)))
      (fun b _ => ((b, none) : String × Option (GoError Unit))) "u" "" ⟨301, "{}"⟩ rfl).2.1
        (by decide)).1

/-! ## Theorems: the launcher's permission test -/

/-- A mode without any execute bit does not have all the bits of 111. -/
theorem land_111_ne_of_no_exec (p : Nat) (h : p &&& 0o111 = 0) : p &&& 111 ≠ 111 := by
  intro h2
  have h0 : (p &&& 111).testBit 0 = true := by rw [h2]; decide
  have h1 : (p &&& 0o111).testBit 0 = true := by
    rw [Nat.testBit_land] at h0 ⊢
    simp only [Bool.and_eq_true] at h0 ⊢
    exact ⟨h0.1, by decide⟩
  rw [h] at h1
  simp at h1

/-- C10. Once the binary of the latest release is found, with permission bits
`p` (nine bits), `lookForExecutableReleases` rejects it with the
"Wrong persion" error if and only if `p AND 111 = 111`, where 111 is octal
0157; so any `p` without execute bit is accepted (0644 for one), 0755 is
accepted, and 0777 is rejected. -/
theorem lookForExecutableReleases_permission {ε V : Type}
    (readDir : String → Except ε (List FileInfo))
    (newVersion : String → Except ε V)
    (sortReverse : List V → List V)
    (versionString : V → String)
    (join : List String → String)
    (stat : String → Except ε Nat)
    (basepath binPath : String)
    (filesInfo : List FileInfo) (versions rest : List V) (v0 : V) (p : Nat)
    (h1 : readDir basepath = .ok filesInfo)
    (h2 : collectVersions newVersion filesInfo [] = .ok versions)
    (h3 : sortReverse versions = v0 :: rest)
    (h4 : stat (join [basepath, versionString v0, binPath]) = .ok p)
    (hp : p < 512) :
    (lookForExecutableReleases readDir newVersion sortReverse versionString join stat
        basepath binPath
      = .error (.wrongPermission p (join [basepath, versionString v0, binPath]))
      ↔ p &&& 111 = 111) ∧
    (p &&& 111 ≠ 111 →
      lookForExecutableReleases readDir newVersion sortReverse versionString join stat
        basepath binPath = .ok (join [basepath, versionString v0, binPath])) ∧
    (111 : Nat) = 0o157 ∧
    (p &&& 0o111 = 0 →
      lookForExecutableReleases readDir newVersion sortReverse versionString join stat
        basepath binPath = .ok (join [basepath, versionString v0, binPath])) ∧
    (p = 0o644 ∨ p = 0o755 →
      lookForExecutableReleases readDir newVersion sortReverse versionString join stat
        basepath binPath = .ok (join [basepath, versionString v0, binPath])) ∧
    (p = 0o777 →
      lookForExecutableReleases readDir newVersion sortReverse versionString join stat
        basepath binPath
      = .error (.wrongPermission p (join [basepath, versionString v0, binPath]))) := by
  have hperm : Perm p = p := by
    unfold Perm
    have : (0o777 : Nat) = 2 ^ 9 - 1 := by decide
    rw [this, Nat.and_pow_two_sub_one_eq_mod]
    exact Nat.mod_eq_of_lt (by simpa using hp)
  have hrej : p &&& 111 = 111 →
      lookForExecutableReleases readDir newVersion sortReverse versionString join stat
        basepath binPath
      = .error (.wrongPermission p (join [basepath, versionString v0, binPath])) := by
    intro h
    unfold lookForExecutableReleases
    simp [h1, h2, h3, h4, hperm, h]
  have hacc : p &&& 111 ≠ 111 →
      lookForExecutableReleases readDir newVersion sortReverse versionString join stat
        basepath binPath = .ok (join [basepath, versionString v0, binPath]) := by
    intro h
    unfold lookForExecutableReleases
    simp [h1, h2, h3, h4, hperm, h]
  refine ⟨⟨fun h => ?_, hrej⟩, hacc, by decide, fun h => hacc (land_111_ne_of_no_exec p h),
    fun h => hacc ?_, fun h => hrej ?_⟩
  · by_contra hc
    rw [hacc hc] at h
    exact absurd h (by simp)
  · rcases h with h | h <;> subst h <;> decide
  · subst h
    decide

/-- C10, at a concrete input: a release directory `1.0` whose binary has mode
0777 is rejected. -/
theorem lookForExecutableReleases_permission_witness :
    lookForExecutableReleases
        (fun _ => (.ok [⟨"1.0", true⟩] : Except Unit (List FileInfo)))
        (fun n => (.ok n : Except Unit String)) (fun l => l) (fun v => v)
        (fun l => String.intercalate "/" l) (fun _ => (.ok 0o777 : Except Unit Nat))
        "releases" "bin"
      = .error (.wrongPermission 0o777 (String.intercalate "/" ["releases", "1.0", "bin"])) :=
  (lookForExecutableReleases_permission
      (fun _ => (.ok [⟨"1.0", true⟩] : Except Unit (List FileInfo)))
      (fun n => (.ok n : Except Unit String)) (fun l => l) (fun v => v)
      (fun l => String.intercalate "/" l) (fun _ => (.ok 0o777 : Except Unit Nat))
      "releases" "bin" [⟨"1.0", true⟩] ["1.0"] [] "1.0" 0o777 rfl rfl rfl rfl
      (by decide)).2.2.2.2.2 rfl

/-! ## Theorems: the rate limiter -/

/-! ### Lists -/

@[simp]
theorem wsum_nil {α : Type} (f : α → Nat) : wsum f [] = 0 := rfl

@[simp]
theorem wsum_cons {α : Type} (f : α → Nat) (a : α) (l : List α) :
    wsum f (a :: l) = f a + wsum f l := by
  simp [wsum]

@[simp]
theorem wsum_append {α : Type} (f : α → Nat) (l₁ l₂ : List α) :
    wsum f (l₁ ++ l₂) = wsum f l₁ + wsum f l₂ := by
  simp [wsum]

/-- Replacing the element at a position trades its weight for the new one. -/
theorem wsum_set {α : Type} (f : α → Nat) (y : α) :
    ∀ (l : List α) (i : Nat) (x : α), l[i]? = some x →
      wsum f (l.set i y) + f x = wsum f l + f y
  | [], i, x, h => by simp at h
  | a :: l, 0, x, h => by
    simp at h
    subst h
    simp [List.set]
    omega
  | a :: l, i + 1, x, h => by
    simp at h
    have := wsum_set f y l i x h
    simp [List.set]
    omega

/-- A pointwise smaller weight has a smaller sum. -/
theorem wsum_le {α : Type} (f g : α → Nat) (h : ∀ a, f a ≤ g a) :
    ∀ l : List α, wsum f l ≤ wsum g l
  | [] => by simp
  | a :: l => by
    have h1 := h a
    have h2 := wsum_le f g h l
    simp
    omega

/-- A pointwise smaller weight, strictly smaller at an element of the list,
has a strictly smaller sum. -/
theorem wsum_lt {α : Type} (f g : α → Nat) (h : ∀ a, f a ≤ g a) :
    ∀ (l : List α) (i : Nat) (x : α), l[i]? = some x → f x + 1 ≤ g x →
      wsum f l + 1 ≤ wsum g l
  | [], i, x, hx, _ => by simp at hx
  | a :: l, 0, x, hx, hlt => by
    simp at hx
    subst hx
    have h2 := wsum_le f g h l
    simp
    omega
  | a :: l, i + 1, x, hx, hlt => by
    simp at hx
    have h1 := h a
    have h2 := wsum_lt f g h l i x hx hlt
    simp
    omega

/-- A property of the element at `k` survives a replacement at `i` that
keeps the property. -/
theorem exists_getElem?_set {α : Type} {l : List α} {i k : Nat} {x y : α} {Q : α → Prop}
    (hx : l[i]? = some x) (hxy : Q x → Q y) (h : ∃ c, l[k]? = some c ∧ Q c) :
    ∃ c, (l.set i y)[k]? = some c ∧ Q c := by
  obtain ⟨c, hc, hq⟩ := h
  by_cases hik : i = k
  · subst hik
    rw [hx] at hc
    simp only [Option.some.injEq] at hc
    subst hc
    have hlt : i < l.length := (List.getElem?_eq_some.mp hx).1
    exact ⟨y, List.getElem?_set_self hlt, hxy hq⟩
  · exact ⟨c, by rw [List.getElem?_set_ne hik]; exact hc, hq⟩

/-- A property of the element at `k` survives an append. -/
theorem exists_getElem?_append {α : Type} {l : List α} {k : Nat} {y : α} {Q : α → Prop}
    (h : ∃ c, l[k]? = some c ∧ Q c) : ∃ c, (l ++ [y])[k]? = some c ∧ Q c := by
  obtain ⟨c, hc, hq⟩ := h
  have hlt : k < l.length := (List.getElem?_eq_some.mp hc).1
  exact ⟨c, by rw [List.getElem?_append_left hlt]; exact hc, hq⟩

/-- The weight at a position after a replacement. -/
theorem getD_set {α : Type} (f : α → Nat) {l : List α} {i : Nat} {x : α} (y : α)
    (hx : l[i]? = some x) (k : Nat) :
    (((l.set i y)[k]?).map f).getD 0 = if k = i then f y else ((l[k]?).map f).getD 0 := by
  have hlt : i < l.length := (List.getElem?_eq_some.mp hx).1
  by_cases hik : k = i
  · subst hik
    simp [List.getElem?_set_self hlt]
  · rw [List.getElem?_set_ne (fun h => hik h.symm)]
    simp [hik]

/-- The weight at a position after an append. -/
theorem getD_append {α : Type} (f : α → Nat) (l : List α) (y : α) (k : Nat) :
    ((((l ++ [y])[k]?).map f).getD 0) =
      if k = l.length then f y else ((l[k]?).map f).getD 0 := by
  by_cases hk : k = l.length
  · subst hk
    simp
  · simp only [hk, if_false]
    by_cases hlt : k < l.length
    · rw [List.getElem?_append_left hlt]
    · have h1 : l.length ≤ k := by omega
      rw [List.getElem?_eq_none h1, List.getElem?_eq_none (by simp; omega)]

/-! ### The invariant -/

theorem forall_mem_set {α : Type} {P : α → Prop} {l : List α} {i : Nat} {y : α}
    (h : ∀ a ∈ l, P a) (hy : P y) : ∀ a ∈ l.set i y, P a := by
  intro a ha
  rcases List.mem_or_eq_of_mem_set ha with h1 | h1
  · exact h a h1
  · exact h1 ▸ hy

theorem getD_set_eq {α : Type} (f : α → Nat) {l : List α} {i : Nat} {x : α} (y : α)
    (hx : l[i]? = some x) (hf : f y = f x) (k : Nat) :
    (((l.set i y)[k]?).map f).getD 0 = ((l[k]?).map f).getD 0 := by
  rw [getD_set f y hx k]
  by_cases hik : k = i
  · subst hik
    simp [hx, hf]
  · simp [hik]

theorem wsum_set_eq {α : Type} (f : α → Nat) {l : List α} {i : Nat} {x : α} (y : α)
    (hx : l[i]? = some x) (hf : f y = f x) : wsum f (l.set i y) = wsum f l := by
  have := wsum_set f y l i x hx
  omega

theorem CallOK.mono {ε τ : Type} {now now' : Int} (h : now ≤ now') (c : Call ε τ)
    (hc : CallOK now c) : CallOK now' c := by
  rcases c with ⟨url, v, pc⟩
  cases pc with
  | send => trivial
  | delegate a disp =>
    cases disp with
    | none => simp only [CallOK] at hc ⊢; omega
    | some d => simp only [CallOK] at hc ⊢; omega
  | returned a d r err out => simp only [CallOK] at hc ⊢; omega

theorem TimerOK.later {W now now' : Int} (h : now ≤ now') (t : Timer)
    (ht : TimerOK W now t) : TimerOK W now' t := by
  rcases t with ⟨owner, since, pc⟩
  cases pc with
  | sleep => simp only [TimerOK, and_true] at ht ⊢; omega
  | recv => simp only [TimerOK] at ht ⊢; omega
  | exited x => simp only [TimerOK] at ht ⊢; omega

theorem freshC_le_holdC {ε τ : Type} (W x : Int) (c : Call ε τ) : freshC W x c ≤ holdC c := by
  rcases c with ⟨url, v, pc⟩
  cases pc with
  | send => simp [freshC, holdC]
  | delegate a disp =>
    cases disp with
    | none => simp [freshC, holdC]
    | some d => simp only [freshC, holdC]; split <;> omega
  | returned a d r err out => simp [freshC, holdC]

theorem freshT_le_holdT (W x : Int) (t : Timer) : freshT W x t ≤ holdT t := by
  rcases t with ⟨owner, since, pc⟩
  cases pc with
  | sleep => simp only [freshT, holdT]; split <;> omega
  | recv => simp [freshT, holdT]
  | exited y => simp [freshT, holdT]

/-- A request in the window `[t, t + W)` that holds `x` was issued less than
`W` before `x`. -/
theorem inWindow_le_freshL {τ : Type} (t W x : Int) (_h1 : t ≤ x) (h2 : x < t + W)
    (e : Dispatch τ) : inWindow t W e ≤ freshL W x e := by
  simp only [inWindow, freshL]
  split <;> split <;> omega

/-- The invariant holds right after construction. -/
theorem Inv.at_init (ε τ : Type) (limit : Nat) (W t0 : Int) :
    Inv limit W (init ε τ limit W t0) where
  cap_eq := rfl
  window_eq := rfl
  len_eq := rfl
  len_le := Nat.zero_le _
  calls_ok := fun c hc => by simp [lol.init] at hc
  timers_ok := fun t ht => by simp [lol.init] at ht
  owner_ok := fun t ht => by simp [lol.init] at ht
  fresh := fun x _ => by simp [lol.init]
  log_ok := fun e he => by simp [lol.init] at he
  log_sorted := by simp [lol.init]
  log_count := fun i => by simp [lol.init]
  timer_count := fun i => by simp [lol.init]
  window_bound := fun t => by simp [lol.init]

theorem Inv.tick {ε τ : Type} {limit : Nat} {W : Int} {s : State ε τ}
    (hinv : Inv limit W s) (dt : Nat) : Inv limit W { s with now := s.now + dt } where
  cap_eq := hinv.cap_eq
  window_eq := hinv.window_eq
  len_eq := hinv.len_eq
  len_le := hinv.len_le
  calls_ok := fun c hc => CallOK.mono (by simp) c (hinv.calls_ok c hc)
  timers_ok := fun t ht => TimerOK.later (by simp) t (hinv.timers_ok t ht)
  owner_ok := hinv.owner_ok
  fresh := fun x hx => hinv.fresh x (by simp at hx; omega)
  log_ok := fun e he => by
    obtain ⟨h1, h2⟩ := hinv.log_ok e he
    exact ⟨by simp; omega, h2⟩
  log_sorted := hinv.log_sorted
  log_count := hinv.log_count
  timer_count := hinv.timer_count
  window_bound := hinv.window_bound

theorem Inv.call {ε τ : Type} {limit : Nat} {W : Int} {s : State ε τ}
    (hinv : Inv limit W s) (url : String) (v : τ) :
    Inv limit W { s with calls := s.calls ++ [⟨url, v, .send⟩] } where
  cap_eq := hinv.cap_eq
  window_eq := hinv.window_eq
  len_eq := by
    have := hinv.len_eq
    simp [holdC]
    omega
  len_le := hinv.len_le
  calls_ok := fun c hc => by
    simp only [List.mem_append, List.mem_singleton] at hc
    rcases hc with hc | hc
    · exact hinv.calls_ok c hc
    · subst hc
      trivial
  timers_ok := hinv.timers_ok
  owner_ok := fun t ht => exists_getElem?_append (hinv.owner_ok t ht)
  fresh := fun x hx => by
    have := hinv.fresh x hx
    simp [freshC]
    omega
  log_ok := fun e he => by
    obtain ⟨h1, h2⟩ := hinv.log_ok e he
    exact ⟨h1, exists_getElem?_append h2⟩
  log_sorted := hinv.log_sorted
  log_count := fun i => by
    have := hinv.log_count i
    simp only [getD_append]
    split
    · rename_i hi
      subst hi
      simpa [dispW] using this
    · exact this
  timer_count := fun i => by
    have := hinv.timer_count i
    simp only [getD_append]
    split
    · rename_i hi
      subst hi
      simpa [retW] using this
    · exact this
  window_bound := hinv.window_bound

theorem Inv.acquire {ε τ : Type} {limit : Nat} {W : Int} {s : State ε τ}
    (hinv : Inv limit W s) (i : Nat) (url : String) (v : τ)
    (hc : s.calls[i]? = some ⟨url, v, .send⟩) (hlen : s.g.tokens.len < s.g.tokens.cap) :
    Inv limit W
      { s with g := s.g.put, calls := s.calls.set i ⟨url, v, .delegate s.now none⟩ } where
  cap_eq := hinv.cap_eq
  window_eq := hinv.window_eq
  len_eq := by
    have h1 := hinv.len_eq
    have h2 := wsum_set holdC ⟨url, v, .delegate s.now none⟩ s.calls i _ hc
    simp only [holdC] at h2
    simp only [RateLimitedRESTGetter.put]
    omega
  len_le := by
    have h1 := hinv.cap_eq
    simp only [RateLimitedRESTGetter.put]
    omega
  calls_ok := forall_mem_set hinv.calls_ok (by simp [CallOK])
  timers_ok := hinv.timers_ok
  owner_ok := fun t ht =>
    exists_getElem?_set hc (fun ⟨_, _, _, _, h⟩ => nomatch h) (hinv.owner_ok t ht)
  fresh := fun x hx => by
    have h1 := hinv.fresh x hx
    have h2 := wsum_set_eq (freshC W x) ⟨url, v, .delegate s.now none⟩ hc rfl
    simp only [h2]
    exact h1
  log_ok := fun e he => by
    obtain ⟨h1, h2⟩ := hinv.log_ok e he
    exact ⟨h1, exists_getElem?_set hc (fun h => by simp [CallPC.disp?] at h) h2⟩
  log_sorted := hinv.log_sorted
  log_count := fun k => by
    have h1 := hinv.log_count k
    simp only [getD_set_eq dispW ⟨url, v, .delegate s.now none⟩ hc rfl k]
    exact h1
  timer_count := fun k => by
    have h1 := hinv.timer_count k
    simp only [getD_set_eq retW ⟨url, v, .delegate s.now none⟩ hc rfl k]
    exact h1
  window_bound := hinv.window_bound

theorem Inv.dispatch {ε τ : Type} {limit : Nat} {W : Int} {s : State ε τ}
    (hinv : Inv limit W s) (i : Nat) (url : String) (v : τ) (acq : Int)
    (hc : s.calls[i]? = some ⟨url, v, .delegate acq none⟩) :
    Inv limit W
      { s with
        calls := s.calls.set i ⟨url, v, .delegate acq (some s.now)⟩
        log := ⟨i, s.now, url, v⟩ :: s.log } where
  cap_eq := hinv.cap_eq
  window_eq := hinv.window_eq
  len_eq := by
    have h1 := hinv.len_eq
    have h2 := wsum_set_eq holdC ⟨url, v, .delegate acq (some s.now)⟩ hc rfl
    simp only [h2]
    exact h1
  len_le := hinv.len_le
  calls_ok := forall_mem_set hinv.calls_ok (by
    have := hinv.calls_ok _ (List.getElem?_mem hc)
    simp only [CallOK] at this ⊢
    omega)
  timers_ok := hinv.timers_ok
  owner_ok := fun t ht =>
    exists_getElem?_set hc (fun ⟨_, _, _, _, h⟩ => nomatch h) (hinv.owner_ok t ht)
  fresh := fun x hx => by
    have h1 := hinv.fresh x hx
    have h2 := wsum_set (freshC W x) ⟨url, v, .delegate acq (some s.now)⟩ s.calls i _ hc
    simp only [freshC] at h2
    simp only [wsum_cons, freshL]
    omega
  log_ok := fun e he => by
    simp only [List.mem_cons] at he
    rcases he with he | he
    · subst he
      refine ⟨le_refl _, ⟨url, v, .delegate acq (some s.now)⟩, ?_, rfl, rfl, rfl⟩
      exact List.getElem?_set_self (List.getElem?_eq_some.mp hc).1
    · obtain ⟨h1, h2⟩ := hinv.log_ok e he
      exact ⟨h1, exists_getElem?_set hc (fun h => by simp [CallPC.disp?] at h) h2⟩
  log_sorted := List.pairwise_cons.mpr ⟨fun e he => (hinv.log_ok e he).1, hinv.log_sorted⟩
  log_count := fun k => by
    have h1 := hinv.log_count k
    have h3 := hinv.log_count i
    simp only [hc, Option.map_some', Option.getD_some, dispW] at h3
    simp only [getD_set dispW ⟨url, v, .delegate acq (some s.now)⟩ hc k, wsum_cons, byCall, dispW]
    by_cases hk : k = i
    · subst hk
      simp only [if_true]
      omega
    · have hk2 : ¬ i = k := fun h => hk h.symm
      simp only [hk, hk2, if_false]
      omega
  timer_count := fun k => by
    have h1 := hinv.timer_count k
    simp only [getD_set_eq retW ⟨url, v, .delegate acq (some s.now)⟩ hc rfl k]
    exact h1
  window_bound := fun t => by
    have h1 := hinv.window_bound t
    simp only [wsum_cons, inWindow]
    split
    · rename_i hw
      have h2 := wsum_le (inWindow t W) (freshL W s.now)
        (inWindow_le_freshL t W s.now hw.1 hw.2) s.log
      have h3 := hinv.fresh s.now (le_refl _)
      have h4 := wsum_lt (freshC W s.now) holdC (freshC_le_holdC W s.now) s.calls i _ hc
        (by simp [freshC, holdC])
      have h5 := wsum_le (freshT W s.now) holdT (freshT_le_holdT W s.now) s.timers
      have h6 := hinv.len_eq
      have h7 := hinv.len_le
      omega
    · omega

theorem Inv.complete {ε τ : Type} {limit : Nat} {W : Int} {s : State ε τ}
    (hinv : Inv limit W s) (i : Nat) (url : String) (v : τ) (acq disp : Int)
    (err : Option (GoError ε)) (out : τ)
    (hc : s.calls[i]? = some ⟨url, v, .delegate acq (some disp)⟩) :
    Inv limit W
      { s with
        calls := s.calls.set i ⟨url, v, .returned acq disp s.now err out⟩
        timers := s.timers ++ [⟨i, s.now, .sleep⟩] } where
  cap_eq := hinv.cap_eq
  window_eq := hinv.window_eq
  len_eq := by
    have h1 := hinv.len_eq
    have h2 := wsum_set holdC ⟨url, v, .returned acq disp s.now err out⟩ s.calls i _ hc
    simp only [holdC] at h2
    simp only [wsum_append, wsum_cons, wsum_nil, holdT]
    omega
  len_le := hinv.len_le
  calls_ok := forall_mem_set hinv.calls_ok (by
    have := hinv.calls_ok _ (List.getElem?_mem hc)
    simp only [CallOK] at this ⊢
    omega)
  timers_ok := fun t ht => by
    simp only [List.mem_append, List.mem_singleton] at ht
    rcases ht with ht | ht
    · exact hinv.timers_ok t ht
    · subst ht
      simp [TimerOK]
  owner_ok := fun t ht => by
    simp only [List.mem_append, List.mem_singleton] at ht
    rcases ht with ht | ht
    · exact exists_getElem?_set hc (fun ⟨_, _, _, _, h⟩ => nomatch h) (hinv.owner_ok t ht)
    · subst ht
      exact ⟨_, List.getElem?_set_self (List.getElem?_eq_some.mp hc).1, acq, disp, err, out, rfl⟩
  fresh := fun x hx => by
    have h1 := hinv.fresh x hx
    have h2 := wsum_set (freshC W x) ⟨url, v, .returned acq disp s.now err out⟩ s.calls i _ hc
    have h3 := hinv.calls_ok _ (List.getElem?_mem hc)
    simp only [CallOK] at h3
    simp only [freshC] at h2
    simp only [wsum_append, wsum_cons, wsum_nil, freshT]
    split at h2 <;> split <;> omega
  log_ok := fun e he => by
    obtain ⟨h1, h2⟩ := hinv.log_ok e he
    exact ⟨h1, exists_getElem?_set hc (fun h => by simpa [CallPC.disp?] using h) h2⟩
  log_sorted := hinv.log_sorted
  log_count := fun k => by
    have h1 := hinv.log_count k
    simp only [getD_set_eq dispW ⟨url, v, .returned acq disp s.now err out⟩ hc rfl k]
    exact h1
  timer_count := fun k => by
    have h1 := hinv.timer_count k
    have h3 := hinv.timer_count i
    simp only [hc, Option.map_some', Option.getD_some, retW] at h3
    simp only [getD_set retW ⟨url, v, .returned acq disp s.now err out⟩ hc k, wsum_append,
      wsum_cons, wsum_nil, byOwner, retW]
    by_cases hk : k = i
    · subst hk
      simp only [if_true]
      omega
    · have hk2 : ¬ i = k := fun h => hk h.symm
      simp only [hk, hk2, if_false]
      omega
  window_bound := hinv.window_bound

theorem Inv.wake {ε τ : Type} {limit : Nat} {W : Int} {s : State ε τ}
    (hinv : Inv limit W s) (j : Nat) (owner : Nat) (since : Int)
    (ht : s.timers[j]? = some ⟨owner, since, .sleep⟩) (hw : since + s.g.window ≤ s.now) :
    Inv limit W { s with timers := s.timers.set j ⟨owner, since, .recv⟩ } where
  cap_eq := hinv.cap_eq
  window_eq := hinv.window_eq
  len_eq := by
    have h1 := hinv.len_eq
    have h2 := wsum_set_eq holdT ⟨owner, since, .recv⟩ ht rfl
    simp only [h2]
    exact h1
  len_le := hinv.len_le
  calls_ok := hinv.calls_ok
  timers_ok := forall_mem_set hinv.timers_ok (by
    have h1 := hinv.timers_ok _ (List.getElem?_mem ht)
    have h2 := hinv.window_eq
    simp only [TimerOK] at h1 ⊢
    omega)
  owner_ok := forall_mem_set hinv.owner_ok
    (hinv.owner_ok ⟨owner, since, .sleep⟩ (List.getElem?_mem ht))
  fresh := fun x hx => by
    have hx' : s.now ≤ x := hx
    have h1 := hinv.fresh x hx
    have h2 := wsum_set (freshT W x) ⟨owner, since, .recv⟩ s.timers j _ ht
    have h3 := hinv.window_eq
    simp only [freshT] at h2
    have h4 : ¬ x < since + W := by omega
    simp only [h4, if_false] at h2
    simp only [] at h1 ⊢
    omega
  log_ok := hinv.log_ok
  log_sorted := hinv.log_sorted
  log_count := hinv.log_count
  timer_count := fun k => by
    have h1 := hinv.timer_count k
    have h2 := wsum_set_eq (byOwner k) ⟨owner, since, .recv⟩ ht rfl
    simp only [h2]
    exact h1
  window_bound := hinv.window_bound

theorem Inv.exit {ε τ : Type} {limit : Nat} {W : Int} {s : State ε τ}
    (hinv : Inv limit W s) (j : Nat) (owner : Nat) (since : Int)
    (ht : s.timers[j]? = some ⟨owner, since, .recv⟩) (g : RateLimitedRESTGetter)
    (hcap : g.tokens.cap = s.g.tokens.cap) (hwin : g.window = s.g.window)
    (hlen : g.tokens.len + 1 = s.g.tokens.len) :
    Inv limit W { s with g := g, timers := s.timers.set j ⟨owner, since, .exited s.now⟩ } where
  cap_eq := hcap.trans hinv.cap_eq
  window_eq := hwin.trans hinv.window_eq
  len_eq := by
    have h1 := hinv.len_eq
    have h2 := wsum_set holdT ⟨owner, since, .exited s.now⟩ s.timers j _ ht
    simp only [holdT] at h2
    simp only [] at h1 ⊢
    omega
  len_le := by
    have h1 := hinv.len_le
    simp only [] at h1 ⊢
    omega
  calls_ok := hinv.calls_ok
  timers_ok := forall_mem_set hinv.timers_ok (by
    have h1 := hinv.timers_ok _ (List.getElem?_mem ht)
    simp only [TimerOK] at h1 ⊢
    omega)
  owner_ok := forall_mem_set hinv.owner_ok
    (hinv.owner_ok ⟨owner, since, .recv⟩ (List.getElem?_mem ht))
  fresh := fun x hx => by
    have h1 := hinv.fresh x hx
    have h2 := wsum_set_eq (freshT W x) ⟨owner, since, .exited s.now⟩ ht rfl
    simp only [h2]
    exact h1
  log_ok := hinv.log_ok
  log_sorted := hinv.log_sorted
  log_count := hinv.log_count
  timer_count := fun k => by
    have h1 := hinv.timer_count k
    have h2 := wsum_set_eq (byOwner k) ⟨owner, since, .exited s.now⟩ ht rfl
    simp only [h2]
    exact h1
  window_bound := hinv.window_bound

/-- In a state of the invariant no timer waits at its receive on an empty
buffer: a timer that has not received counts in the length. -/
theorem Inv.len_pos_of_timer {ε τ : Type} {limit : Nat} {W : Int} {s : State ε τ}
    (hinv : Inv limit W s) (j : Nat) (t : Timer) (ht : s.timers[j]? = some t)
    (hpc : holdT t = 1) : 0 < s.g.tokens.len := by
  have h1 := hinv.len_eq
  have h2 := wsum_lt (fun _ => 0) holdT (fun _ => Nat.zero_le _) s.timers j t ht
    (by show 0 + 1 ≤ holdT t; omega)
  omega

/-- The step relation keeps the invariant. -/
theorem Inv.step {ε β τ : Type} (decode : β → τ → τ × Option (GoError ε))
    {limit : Nat} {W : Int} {s s' : State ε τ} {e : Event ε β τ}
    (hinv : Inv limit W s) (h : Step decode s e s') : Inv limit W s' := by
  cases h with
  | tick dt => exact hinv.tick dt
  | call url v => exact hinv.call url v
  | acquire i url v hc hlen => exact hinv.acquire i url v hc hlen
  | handoff i j url v owner since hc ht hlen =>
    have := hinv.len_pos_of_timer j _ ht rfl
    omega
  | dispatch i url v acq hc => exact hinv.dispatch i url v acq hc
  | complete i httpGet url v acq disp hc => exact hinv.complete i url v acq disp _ _ hc
  | wake j owner since ht hw => exact hinv.wake j owner since ht hw
  | release j owner since ht hlen =>
    exact hinv.exit j owner since ht s.g.take rfl rfl (by
      simp only [RateLimitedRESTGetter.take]
      omega)

/-- Every step `step?` takes is a step of the relation. -/
theorem Step.of_step? {ε β τ : Type} (decode : β → τ → τ × Option (GoError ε))
    (s s' : State ε τ) (e : Event ε β τ) (h : step? decode s e = some s') :
    Step decode s e s' := by
  cases e with
  | tick dt =>
    simp only [step?, Option.some.injEq] at h
    subst h
    exact Step.tick s dt
  | call url v =>
    simp only [step?, Option.some.injEq] at h
    subst h
    exact Step.call s url v
  | acquire i =>
    simp only [step?] at h
    split at h
    · rename_i url v hc
      split at h
      · rename_i hlen
        simp only [Option.some.injEq] at h
        subst h
        exact Step.acquire s i url v hc hlen
      · exact absurd h (by simp)
    · exact absurd h (by simp)
  | handoff i j =>
    simp only [step?] at h
    split at h
    · rename_i url v owner since hc ht
      split at h
      · rename_i hlen
        simp only [Option.some.injEq] at h
        subst h
        exact Step.handoff s i j url v owner since hc ht hlen
      · exact absurd h (by simp)
    · exact absurd h (by simp)
  | dispatch i =>
    simp only [step?] at h
    split at h
    · rename_i url v acq hc
      simp only [Option.some.injEq] at h
      subst h
      exact Step.dispatch s i url v acq hc
    · exact absurd h (by simp)
  | complete i httpGet =>
    simp only [step?] at h
    split at h
    · rename_i url v acq disp hc
      simp only [Option.some.injEq] at h
      subst h
      exact Step.complete s i httpGet url v acq disp hc
    · exact absurd h (by simp)
  | wake j =>
    simp only [step?] at h
    split at h
    · rename_i owner since ht
      split at h
      · rename_i hw
        simp only [Option.some.injEq] at h
        subst h
        exact Step.wake s j owner since ht hw
      · exact absurd h (by simp)
    · exact absurd h (by simp)
  | release j =>
    simp only [step?] at h
    split at h
    · rename_i owner since ht
      split at h
      · rename_i hlen
        simp only [Option.some.injEq] at h
        subst h
        exact Step.release s j owner since ht hlen
      · exact absurd h (by simp)
    · exact absurd h (by simp)

/-- Every step of the relation is the step `step?` takes. -/
theorem Step.to_step? {ε β τ : Type} (decode : β → τ → τ × Option (GoError ε))
    (s s' : State ε τ) (e : Event ε β τ) (h : Step decode s e s') :
    step? decode s e = some s' := by
  cases h with
  | tick dt => rfl
  | call url v => rfl
  | acquire i url v hc hlen => simp only [step?, hc, hlen, if_true]
  | handoff i j url v owner since hc ht hlen => simp only [step?, hc, ht, hlen, if_true]
  | dispatch i url v acq hc => simp only [step?, hc]
  | complete i httpGet url v acq disp hc => simp only [step?, hc]
  | wake j owner since ht hw => simp only [step?, ht, hw, if_true]
  | release j owner since ht hlen => simp only [step?, ht, hlen, if_true]

/-- Every run from a state of the invariant ends in a state of the
invariant. -/
theorem Inv.of_run {ε β τ : Type} (decode : β → τ → τ × Option (GoError ε))
    {limit : Nat} {W : Int} :
    ∀ (es : List (Event ε β τ)) (s s' : State ε τ), Inv limit W s →
      lol.run decode s es = some s' → Inv limit W s'
  | [], s, s', hinv, h => by
    simp only [lol.run, Option.some.injEq] at h
    exact h ▸ hinv
  | e :: es, s, s', hinv, h => by
    simp only [lol.run] at h
    split at h
    · rename_i s1 h1
      exact Inv.of_run decode es s1 s' (hinv.step decode (Step.of_step? decode s s1 e h1)) h
    · exact absurd h (by simp)

/-- Every state reached from the constructor is a state of the invariant. -/
theorem Inv.reachable {ε β τ : Type} (decode : β → τ → τ × Option (GoError ε))
    (limit : Nat) (W t0 : Int) (es : List (Event ε β τ)) (s : State ε τ)
    (h : lol.run decode (lol.init ε τ limit W t0) es = some s) : Inv limit W s :=
  Inv.of_run decode es _ s (Inv.at_init ε τ limit W t0) h

theorem wsum_eq_countP {α : Type} (f : α → Nat) (p : α → Bool)
    (h : ∀ a, f a = if p a then 1 else 0) : ∀ l : List α, wsum f l = l.countP p
  | [] => by simp
  | a :: l => by
    have h1 := wsum_eq_countP f p h l
    rw [wsum_cons, List.countP_cons, h1, h a]
    omega

theorem le_wsum_of_mem {α : Type} (f : α → Nat) :
    ∀ (l : List α) (a : α), a ∈ l → f a ≤ wsum f l
  | [], a, h => by simp at h
  | b :: l, a, h => by
    simp only [List.mem_cons] at h
    rw [wsum_cons]
    rcases h with h | h
    · subst h
      omega
    · have := le_wsum_of_mem f l a h
      omega

theorem holdC_eq {ε τ : Type} (c : Call ε τ) : holdC c = if c.inDelegate then 1 else 0 := by
  rcases c with ⟨url, v, pc⟩
  cases pc <;> rfl

theorem holdT_eq (t : Timer) : holdT t = if t.pending then 1 else 0 := by
  rcases t with ⟨owner, since, pc⟩
  cases pc <;> rfl

theorem Idle.keep {ε β τ : Type} (decode : β → τ → τ × Option (GoError ε))
    {s s' : State ε τ} {e : Event ε β τ} (hi : Idle s) (h : Step decode s e s') : Idle s' := by
  cases h with
  | tick dt => exact ⟨hi.cap_eq, hi.len_eq, hi.calls_send, hi.timers_nil, hi.log_nil⟩
  | call url v =>
    refine ⟨hi.cap_eq, hi.len_eq, fun c hc => ?_, hi.timers_nil, hi.log_nil⟩
    simp only [List.mem_append, List.mem_singleton] at hc
    rcases hc with hc | hc
    · exact hi.calls_send c hc
    · subst hc
      rfl
  | acquire i url v hc hlen =>
    have := hi.cap_eq
    omega
  | handoff i j url v owner since hc ht hlen =>
    rw [hi.timers_nil] at ht
    simp at ht
  | dispatch i url v acq hc =>
    have := hi.calls_send _ (List.getElem?_mem hc)
    simp at this
  | complete i httpGet url v acq disp hc =>
    have := hi.calls_send _ (List.getElem?_mem hc)
    simp at this
  | wake j owner since ht hw =>
    rw [hi.timers_nil] at ht
    simp at ht
  | release j owner since ht hlen =>
    rw [hi.timers_nil] at ht
    simp at ht

theorem Idle.of_trace {ε β τ : Type} (decode : β → τ → τ × Option (GoError ε)) :
    ∀ (es : List (Event ε β τ)) (s s' : State ε τ), Idle s →
      lol.run decode s es = some s' → Idle s'
  | [], s, s', hi, h => by
    simp only [lol.run, Option.some.injEq] at h
    exact h ▸ hi
  | e :: es, s, s', hi, h => by
    simp only [lol.run] at h
    split at h
    · rename_i s1 h1
      exact Idle.of_trace decode es s1 s' (hi.keep decode (Step.of_step? decode s s1 e h1)) h
    · exact absurd h (by simp)

/-! ### The claims on the rate limiter -/

/-- C1. Rate bound. In every state reached from
`NewRateLimitedRESTGetter(limit, window)` by calls of `Get`, sends,
dispatches, returns and timer steps with time passing in between, at most
`limit` delegated requests were issued in any half-open interval of length
`window`; and with `limit = 1` a request issued after another one is issued
no earlier than `window` after the call of the earlier one acquired its
token. -/
theorem rate_bound {ε β τ : Type} (decode : β → τ → τ × Option (GoError ε))
    (limit : Nat) (window t0 : Int) (es : List (Event ε β τ)) (s : State ε τ)
    (hrun : run decode (init ε τ limit window t0) es = some s) :
    (∀ t : Int, s.log.countP (fun e => decide (t ≤ e.time ∧ e.time < t + window)) ≤ limit) ∧
    (limit = 1 → ∀ (l₁ l₂ : List (Dispatch τ)) (e₁ e₂ : Dispatch τ) (c : Call ε τ) (a : Int),
      s.log = l₁ ++ e₂ :: l₂ → e₁ ∈ l₂ → s.calls[e₁.call]? = some c → c.pc.acq? = some a →
        a + window ≤ e₂.time) := by
  have hinv := Inv.reachable decode limit window t0 es s hrun
  constructor
  · intro t
    have h1 := hinv.window_bound t
    rw [wsum_eq_countP (inWindow t window)
      (fun e => decide (t ≤ e.time ∧ e.time < t + window))
      (fun e => by simp [inWindow]) s.log] at h1
    exact h1
  · intro hl l₁ l₂ e₁ e₂ c a hlog hmem hc ha
    by_contra hlt
    have he1 : e₁ ∈ s.log := by rw [hlog]; simp [hmem]
    obtain ⟨_, c', hc', _, _, hd⟩ := hinv.log_ok e₁ he1
    rw [hc] at hc'
    simp only [Option.some.injEq] at hc'
    subst hc'
    have hok := hinv.calls_ok c (List.getElem?_mem hc)
    have hle : a ≤ e₁.time := by
      rcases c with ⟨url, v, pc⟩
      cases pc with
      | send => simp [CallPC.acq?] at ha
      | delegate a' disp =>
        cases disp with
        | none => simp [CallPC.disp?] at hd
        | some d =>
          simp only [CallPC.acq?, CallPC.disp?, Option.some.injEq] at ha hd
          simp only [CallOK] at hok
          omega
      | returned a' d r err out =>
        simp only [CallPC.acq?, CallPC.disp?, Option.some.injEq] at ha hd
        simp only [CallOK] at hok
        omega
    have hsorted := hinv.log_sorted
    rw [hlog] at hsorted
    have h12 : e₁.time ≤ e₂.time :=
      (List.pairwise_cons.mp (List.pairwise_append.mp hsorted).2.1).1 e₁ hmem
    have hwb := hinv.window_bound e₁.time
    rw [hlog] at hwb
    simp only [wsum_append, wsum_cons] at hwb
    have h1 : inWindow e₁.time window e₂ = 1 := by
      simp only [inWindow]
      rw [if_pos]
      omega
    have h2 := le_wsum_of_mem (inWindow e₁.time window) l₂ e₁ hmem
    have h3 : inWindow e₁.time window e₁ = 1 := by
      simp only [inWindow]
      rw [if_pos]
      omega
    omega

/-- C1, on a run of two calls with limit 1 and window 10: the second request
is issued at 13, the first call acquired its token at 0. -/
theorem rate_bound_witness :
    ∃ s, run exampleDecode (init Unit String 1 10 0) twoCalls = some s ∧
      (s.log.map (fun e => e.time) = [13, 0]) ∧
      s.log.countP (fun e => decide ((4 : Int) ≤ e.time ∧ e.time < 4 + 10)) ≤ 1 := by
  obtain ⟨s, hs⟩ : ∃ s, run exampleDecode (init Unit String 1 10 0) twoCalls = some s :=
    ⟨_, rfl⟩
  refine ⟨s, hs, ?_, (rate_bound exampleDecode 1 10 0 twoCalls s hs).1 4⟩
  have h2 : (run exampleDecode (init Unit String 1 10 0) twoCalls).map
      (fun s => s.log.map (fun e => e.time)) = some [13, 0] := by decide
  rw [hs] at h2
  simpa using h2

/-- C2. Pool invariant. In every state reached from
`NewRateLimitedRESTGetter(limit, window)` the channel `tokens` holds at most
`limit` values, the tokens acquired and not yet returned (calls in the
delegated `Get`, timers that have not received) are at most `limit`, and the
capacity and the window are those of the construction. -/
theorem pool_invariant {ε β τ : Type} (decode : β → τ → τ × Option (GoError ε))
    (limit : Nat) (window t0 : Int) (es : List (Event ε β τ)) (s : State ε τ)
    (hrun : run decode (init ε τ limit window t0) es = some s) :
    s.g.tokens.len ≤ limit ∧
    s.calls.countP Call.inDelegate + s.timers.countP Timer.pending ≤ limit ∧
    s.g.tokens.cap = limit ∧ s.g.window = window := by
  have hinv := Inv.reachable decode limit window t0 es s hrun
  have h1 := hinv.len_eq
  rw [wsum_eq_countP holdC Call.inDelegate holdC_eq,
    wsum_eq_countP holdT Timer.pending holdT_eq] at h1
  have h2 := hinv.len_le
  exact ⟨h2, by omega, hinv.cap_eq, hinv.window_eq⟩

/-- C2, on the run of two calls with limit 1 and window 10. -/
theorem pool_invariant_witness :
    ∃ s, run exampleDecode (init Unit String 1 10 0) twoCalls = some s ∧
      s.g.tokens.len ≤ 1 ∧ s.g.tokens.cap = 1 ∧ s.g.window = 10 := by
  obtain ⟨s, hs⟩ : ∃ s, run exampleDecode (init Unit String 1 10 0) twoCalls = some s :=
    ⟨_, rfl⟩
  have h := pool_invariant exampleDecode 1 10 0 twoCalls s hs
  exact ⟨s, hs, h.1, h.2.2.1, h.2.2.2⟩

theorem dispW_eq {ε τ : Type} (c : Call ε τ) :
    dispW c = if c.pc.disp?.isSome then 1 else 0 := by
  rcases c with ⟨url, v, pc⟩
  cases pc with
  | send => rfl
  | delegate a disp => cases disp <;> rfl
  | returned a d r err out => rfl

theorem retW_eq {ε τ : Type} (c : Call ε τ) :
    retW c = if c.pc.err?.isSome then 1 else 0 := by
  rcases c with ⟨url, v, pc⟩
  cases pc <;> rfl

/-- C4. Verbatim delegation. For a call `i` of `Get(url, v)` in a reached
state: the wrapped `Get` was called once if the call got that far and not at
all otherwise, every time with the url and the target of the call; and when
the call is in the wrapped `Get`, whatever the transport answers, the call
returns exactly the error of `SimpleRESTGetter.Get` on that url and target,
leaves its target as that call left it, and calls the wrapped `Get` no second
time. -/
theorem verbatim_delegation {ε β τ : Type} (decode : β → τ → τ × Option (GoError ε))
    (limit : Nat) (window t0 : Int) (es : List (Event ε β τ)) (s : State ε τ)
    (hrun : run decode (init ε τ limit window t0) es = some s)
    (i : Nat) (c : Call ε τ) (hc : s.calls[i]? = some c) :
    s.log.countP (fun e => e.call == i) = (if c.pc.disp?.isSome then 1 else 0) ∧
    (∀ e ∈ s.log, e.call = i → e.url = c.url ∧ e.v = c.v) ∧
    (∀ (acq disp : Int) (httpGet : String → Except (GoError ε) (Response β)),
      c.pc = .delegate acq (some disp) →
      ∃ s', step? decode s (.complete i httpGet) = some s' ∧ s'.log = s.log ∧
        s'.calls[i]? = some ⟨c.url, c.v, .returned acq disp s.now
          (SimpleRESTGetter.Get s.g.getter httpGet decode c.url c.v).err
          (SimpleRESTGetter.Get s.g.getter httpGet decode c.url c.v).v⟩) := by
  have hinv := Inv.reachable decode limit window t0 es s hrun
  refine ⟨?_, ?_, ?_⟩
  · have h1 := hinv.log_count i
    rw [wsum_eq_countP (byCall i) (fun e => e.call == i) (fun e => by simp [byCall]) s.log,
      hc] at h1
    simpa [dispW_eq] using h1
  · intro e he hei
    obtain ⟨_, c', hc', h1, h2, _⟩ := hinv.log_ok e he
    rw [hei, hc] at hc'
    simp only [Option.some.injEq] at hc'
    subst hc'
    exact ⟨h1.symm, h2.symm⟩
  · intro acq disp httpGet hpc
    rcases c with ⟨url, v, pc⟩
    simp only at hpc
    subst hpc
    exact ⟨{ s with
        calls := s.calls.set i ⟨url, v, .returned acq disp s.now
          (SimpleRESTGetter.Get s.g.getter httpGet decode url v).err
          (SimpleRESTGetter.Get s.g.getter httpGet decode url v).v⟩
        timers := s.timers ++ [⟨i, s.now, .sleep⟩] },
      by simp only [step?, hc], rfl,
      List.getElem?_set_self (List.getElem?_eq_some.mp hc).1⟩

/-- C4, on a run: the call of `Get("u", "")` on a transport answering 200
returns the decoder's `nil`. -/
theorem verbatim_delegation_witness :
    ∃ s', step? exampleDecode
        ((run exampleDecode (init Unit String 1 10 0) slowRequest).getD
          (init Unit String 1 10 0)) (.complete 0 exampleNet) = some s' ∧
      s'.calls[0]? = some ⟨"u", "", .returned 0 0 10 none "{}"⟩ := by
  obtain ⟨s, hs⟩ : ∃ s, run exampleDecode (init Unit String 1 10 0) slowRequest = some s :=
    ⟨_, rfl⟩
  have hc : s.calls[0]? = some ⟨"u", "", .delegate 0 (some 0)⟩ := by
    have h2 : (run exampleDecode (init Unit String 1 10 0) slowRequest).map
        (fun s => s.calls[0]?) = some (some ⟨"u", "", .delegate 0 (some 0)⟩) := by decide
    rw [hs] at h2
    simpa using h2
  have hnow : s.now = 10 := by
    have h2 : (run exampleDecode (init Unit String 1 10 0) slowRequest).map
        (fun s => s.now) = some 10 := by decide
    rw [hs] at h2
    simpa using h2
  obtain ⟨s', h1, _, h3⟩ :=
    (verbatim_delegation exampleDecode 1 10 0 slowRequest s hs 0 _ hc).2.2 0 0 exampleNet rfl
  rw [hs]
  refine ⟨s', h1, ?_⟩
  rw [h3, hnow]
  rfl

/-- C5, as stated, fails. With limit 1 and window 10, a call acquires its
token and issues its request at time 0, and the request takes 15. At time 10
(acquisition time + window) the token is still in the channel and no release
is scheduled; once `Get` returned at 15, the sleep cannot end at 24; the token
leaves the channel at 25 (acquisition time + 15 + window). -/
theorem release_timing_counterexample :
    (run exampleDecode (init Unit String 1 10 0) slowRequest).map
        (fun s => (s.now, s.g.tokens.len, s.timers.length)) = some (10, 1, 0) ∧
    (run exampleDecode (init Unit String 1 10 0)
        (slowRequest ++ [.tick 5, .complete 0 exampleNet, .tick 9, .wake 0])).isSome = false ∧
    (run exampleDecode (init Unit String 1 10 0) slowRequestReleased).map
        (fun s => (s.now, s.g.tokens.len, s.timers)) = some (25, 0, [⟨0, 15, .exited 25⟩]) := by
  decide

/-- C5, amended. In every reached state, a release is scheduled only by a
call whose delegated `Get` has returned, and its sleep starts at that return;
the token leaves the channel no earlier than `window` after the return, which
is no earlier than the acquisition; and while a call is in the delegated `Get`
no release is scheduled for it and the channel is not empty. -/
theorem release_after_return {ε β τ : Type} (decode : β → τ → τ × Option (GoError ε))
    (limit : Nat) (window t0 : Int) (es : List (Event ε β τ)) (s : State ε τ)
    (hrun : run decode (init ε τ limit window t0) es = some s) :
    (∀ t ∈ s.timers, ∃ c a d err out, s.calls[t.owner]? = some c ∧
      c.pc = .returned a d t.since err out ∧ a ≤ d ∧ d ≤ t.since ∧
      ∀ x, t.pc = .exited x → a + (t.since - a) + window ≤ x) ∧
    (∀ i c a disp, s.calls[i]? = some c → c.pc = .delegate a disp →
      s.timers.countP (fun t => t.owner == i) = 0 ∧ 0 < s.g.tokens.len) := by
  have hinv := Inv.reachable decode limit window t0 es s hrun
  constructor
  · rintro ⟨owner, since, tpc⟩ ht
    obtain ⟨c, hc, a, d, err, out, hpc⟩ := hinv.owner_ok _ ht
    have hok := hinv.calls_ok c (List.getElem?_mem hc)
    have htok := hinv.timers_ok _ ht
    rcases c with ⟨url, v, pc⟩
    simp only at hpc hc
    subst hpc
    simp only [CallOK] at hok
    refine ⟨_, a, d, err, out, hc, rfl, hok.1, hok.2.1, ?_⟩
    intro x hx
    simp only at hx
    subst hx
    simp only [TimerOK] at htok
    simp only
    omega
  · intro i c a disp hc hpc
    rcases c with ⟨url, v, pc⟩
    simp only at hpc
    subst hpc
    constructor
    · have h1 := hinv.timer_count i
      rw [wsum_eq_countP (byOwner i) (fun t => t.owner == i) (fun t => by simp [byOwner])
        s.timers, hc] at h1
      simpa [retW] using h1
    · have h1 := hinv.len_eq
      have h2 := wsum_lt (fun _ => 0) holdC (fun _ => Nat.zero_le _) s.calls i _ hc
        (by show 0 + 1 ≤ holdC _; simp [holdC])
      omega

/-- C5 amended, on the run where the request takes 15: the token left the
channel at 25. -/
theorem release_after_return_witness :
    ∃ s, run exampleDecode (init Unit String 1 10 0) slowRequestReleased = some s ∧
      ∀ t ∈ s.timers, ∃ c a d err out, s.calls[t.owner]? = some c ∧
        c.pc = .returned a d t.since err out ∧ a ≤ d ∧ d ≤ t.since ∧
        ∀ x, t.pc = .exited x → a + (t.since - a) + 10 ≤ x := by
  obtain ⟨s, hs⟩ :
      ∃ s, run exampleDecode (init Unit String 1 10 0) slowRequestReleased = some s :=
    ⟨_, rfl⟩
  exact ⟨s, hs, (release_after_return exampleDecode 1 10 0 _ s hs).1⟩

/-- C6. Exactly-once release. In every reached state: the channel holds as
many values as there are calls in the delegated `Get` plus releases scheduled
and not yet done; a call that returned, with `nil` or with an error, has
exactly one release scheduled for it, and a call that has not returned has
none; and a timer at its receive finds a value in the channel, so that its
release step can be taken. -/
theorem release_exactly_once {ε β τ : Type} (decode : β → τ → τ × Option (GoError ε))
    (limit : Nat) (window t0 : Int) (es : List (Event ε β τ)) (s : State ε τ)
    (hrun : run decode (init ε τ limit window t0) es = some s) :
    s.g.tokens.len = s.calls.countP Call.inDelegate + s.timers.countP Timer.pending ∧
    (∀ i c, s.calls[i]? = some c →
      (∀ err, c.pc.err? = some err → s.timers.countP (fun t => t.owner == i) = 1) ∧
      (c.pc.err? = none → s.timers.countP (fun t => t.owner == i) = 0)) ∧
    (∀ j t, s.timers[j]? = some t → t.pc = .recv →
      0 < s.g.tokens.len ∧ (step? decode s (.release j)).isSome = true) := by
  have hinv := Inv.reachable decode limit window t0 es s hrun
  refine ⟨?_, ?_, ?_⟩
  · have h1 := hinv.len_eq
    rw [wsum_eq_countP holdC Call.inDelegate holdC_eq,
      wsum_eq_countP holdT Timer.pending holdT_eq] at h1
    exact h1
  · intro i c hc
    have h1 := hinv.timer_count i
    rw [wsum_eq_countP (byOwner i) (fun t => t.owner == i) (fun t => by simp [byOwner])
      s.timers, hc] at h1
    simp only [Option.map_some', Option.getD_some, retW_eq] at h1
    constructor
    · intro err herr
      simpa [herr] using h1
    · intro herr
      simpa [herr] using h1
  · rintro j ⟨owner, since, pc⟩ ht hpc
    simp only at hpc
    subst hpc
    have hpos := hinv.len_pos_of_timer j _ ht rfl
    exact ⟨hpos, by simp [step?, ht, hpos]⟩

/-- C6, on the run where the request takes 15 and returns `nil`: one release
was scheduled for the call. -/
theorem release_exactly_once_witness :
    ∃ s, run exampleDecode (init Unit String 1 10 0) slowRequestReleased = some s ∧
      s.calls[0]? = some ⟨"u", "", .returned 0 0 15 none "{}"⟩ ∧
      s.timers.countP (fun t => t.owner == 0) = 1 := by
  obtain ⟨s, hs⟩ :
      ∃ s, run exampleDecode (init Unit String 1 10 0) slowRequestReleased = some s :=
    ⟨_, rfl⟩
  have hc : s.calls[0]? = some ⟨"u", "", .returned 0 0 15 none "{}"⟩ := by
    have h2 : (run exampleDecode (init Unit String 1 10 0) slowRequestReleased).map
        (fun s => s.calls[0]?) = some (some ⟨"u", "", .returned 0 0 15 none "{}"⟩) := by decide
    rw [hs] at h2
    simpa using h2
  exact ⟨s, hs, hc,
    ((release_exactly_once exampleDecode 1 10 0 _ s hs).2.1 0 _ hc).1 none rfl⟩

/-- C9. Zero limit. `NewRateLimitedRESTGetter(0, window)` builds a getter
with an unbuffered channel, and in every state reached from it every call is
still at its send, no timer was started and no request was issued; no send
can put a value, no send can meet a receive, and no call can issue a
request. -/
theorem zero_limit_never_dispatches {ε β τ : Type} (decode : β → τ → τ × Option (GoError ε))
    (window t0 : Int) (es : List (Event ε β τ)) (s : State ε τ)
    (hrun : run decode (init ε τ 0 window t0) es = some s) :
    (NewRateLimitedRESTGetter 0 window).tokens = ⟨0, 0⟩ ∧
    (∀ c ∈ s.calls, c.pc = .send) ∧ s.timers = [] ∧ s.log = [] ∧ s.g.tokens.len = 0 ∧
    (∀ i, step? decode s (.acquire i) = none) ∧
    (∀ i j, step? decode s (.handoff i j) = none) ∧
    (∀ i, step? decode s (.dispatch i) = none) := by
  have hi : Idle s :=
    Idle.of_trace decode es _ s ⟨rfl, rfl, fun c hc => by simp [init] at hc, rfl, rfl⟩ hrun
  refine ⟨rfl, hi.calls_send, hi.timers_nil, hi.log_nil, hi.len_eq, ?_, ?_, ?_⟩
  · intro i
    cases h : step? decode s (.acquire i) with
    | none => rfl
    | some s' =>
      have h2 := Step.of_step? decode s s' _ h
      cases h2 with
      | acquire i url v hc hlen =>
        have := hi.cap_eq
        omega
  · intro i j
    cases h : step? decode s (.handoff i j) with
    | none => rfl
    | some s' =>
      have h2 := Step.of_step? decode s s' _ h
      cases h2 with
      | handoff i j url v owner since hc ht hlen =>
        rw [hi.timers_nil] at ht
        simp at ht
  · intro i
    cases h : step? decode s (.dispatch i) with
    | none => rfl
    | some s' =>
      have h2 := Step.of_step? decode s s' _ h
      cases h2 with
      | dispatch i url v acq hc =>
        have := hi.calls_send _ (List.getElem?_mem hc)
        simp at this

/-- C9, on a run of two calls on a getter of limit 0, with time passing. -/
theorem zero_limit_never_dispatches_witness :
    ∃ s, run exampleDecode (init Unit String 0 10 0) blockedCalls = some s ∧
      s.calls.length = 2 ∧ (∀ c ∈ s.calls, c.pc = .send) ∧ s.log = [] := by
  obtain ⟨s, hs⟩ : ∃ s, run exampleDecode (init Unit String 0 10 0) blockedCalls = some s :=
    ⟨_, rfl⟩
  have hlen : s.calls.length = 2 := by
    have h2 : (run exampleDecode (init Unit String 0 10 0) blockedCalls).map
        (fun s => s.calls.length) = some 2 := by decide
    rw [hs] at h2
    simpa using h2
  have h := zero_limit_never_dispatches exampleDecode 10 0 blockedCalls s hs
  exact ⟨s, hs, hlen, h.2.1, h.2.2.2.1⟩

end lol
